import Mathlib

/-!
Verification model of `aiter/mla.py` (multi-head latent attention decode/prefill
driver with a two-stage split-KV reduction).

Modelling conventions (shallow embedding):
* Machine floats are modelled by exact real numbers `ℝ`; the Python-side float
  scalars that only flow through comparisons (`logit_cap`) are modelled by `ℚ`
  so that the control flow is executable.  `84.1` becomes the exact rational
  `841/10`.
* The Triton buffers `Mid_O` (partial outputs, logical shape
  `(total_s, num_splits, nhead, Lv)`) and `Mid_lse` (partial log-sum-exp,
  logical shape `(total_s, num_splits, nhead, 1)`) are modelled as total
  functions from logical indices.  The kernel's stride arithmetic
  (`offs_v = (q*stride_mid_ob + h*stride_mid_oh)*Lv + d + s*stride_mid_os*Lv`)
  addresses exactly the element `[q, s, h, d]` of the contiguous scratch
  tensors passed by `mla_decode_fwd`, so indexing by `(q, s, h, d)` is faithful.
* The running maximum `e_max` starts at `-float("inf")`; it is modelled as
  `Option ℝ` with `none` standing for `-∞`.  On the first merge the code
  computes `n_e_max = max(tlogic, -inf) = tlogic` and
  `old_scale = exp(-inf - n_e_max) = 0`; the model writes the literal `0`.
* Real division by zero (`acc / e_sum` with `e_sum = 0`, a NaN on hardware) is
  the usual Lean total division; theorems about this degenerate case speak
  about `e_sum = 0` itself, never about the junk value of the division.
* The stage-1 assembly kernel (`aiter.mla_decode_stage1_asm_fwd`,
  `aiter.mla_prefill_asm_fwd`) and `get_cu_num()` are external collaborators:
  the kernels are modelled as arbitrary buffer contents passed in as function
  arguments, and the compute-unit count is an explicit `cu_num` argument.
-/

namespace Mla

/-- Triton `tl.cdiv`: ceiling division on naturals. -/
def cdiv (a b : ℕ) : ℕ := (a + b - 1) / b

/-- Per-(program-id) running state of the stage-2 online-softmax loop in
`_fwd_kernel_stage2_asm`: running sum `e_sum`, running max `e_max`
(`none` = `-float("inf")`), accumulator vector `acc` (lanes beyond `Lv`
stay `0`, matching the zero-filled masked loads). -/
structure RState where
  e_sum : ℝ
  e_max : Option ℝ
  acc : ℕ → ℝ

/-- `e_sum = 0.0`, `e_max = -inf`, `acc = tl.zeros([BLOCK_DV])`. -/
def initState : RState := ⟨0, none, fun _ => 0⟩

/-- One online-softmax merge (the body of the `if split_kv_end > split_kv_start`
branch): `n_e_max = max(tlogic, e_max)`, `old_scale = exp(e_max - n_e_max)`,
`acc = acc*old_scale + exp(tlogic - n_e_max)*tv`,
`e_sum = e_sum*old_scale + exp(tlogic - n_e_max)`, `e_max = n_e_max`.
When `e_max = -inf` the code gets `n_e_max = tlogic` and `old_scale = exp(-inf) = 0`. -/
noncomputable def mergeStep (tv : ℕ → ℝ) (tlogic : ℝ) (st : RState) : RState :=
  match st with
  | ⟨es, none, acc⟩ =>
      ⟨es * 0 + Real.exp (tlogic - tlogic), some tlogic,
        fun d => acc d * 0 + Real.exp (tlogic - tlogic) * tv d⟩
  | ⟨es, some m, acc⟩ =>
      let n := max tlogic m
      ⟨es * Real.exp (m - n) + Real.exp (tlogic - n), some n,
        fun d => acc d * Real.exp (m - n) + Real.exp (tlogic - n) * tv d⟩

/-- One iteration of the `for split_kv_id in range(0, NUM_KV_SPLITS)` loop:
`kv_len_per_split = max(mgc, cdiv(cur_kv_seq_len, NUM_KV_SPLITS))`,
`split_kv_start = kv_len_per_split * split_kv_id`,
`split_kv_end = min(split_kv_start + kv_len_per_split, cur_kv_seq_len)`;
the partial output is loaded masked to `d < Lv` (`other=0.0`), and nothing at
all is loaded when the split range is empty. -/
noncomputable def splitStep (Mid_O : ℕ → ℕ → ℕ → ℕ → ℝ) (Mid_lse : ℕ → ℕ → ℕ → ℝ)
    (q h kvlen nsplit mgc Lv : ℕ) (st : RState) (s : ℕ) : RState :=
  let chunk := max mgc (cdiv kvlen nsplit)
  let start := chunk * s
  let stop := min (start + chunk) kvlen
  if start < stop then
    mergeStep (fun d => if d < Lv then Mid_O q s h d else 0) (Mid_lse q s h) st
  else st

/-- The whole split loop of `_fwd_kernel_stage2_asm`, from the initial state. -/
noncomputable def stage2Loop (Mid_O : ℕ → ℕ → ℕ → ℕ → ℝ) (Mid_lse : ℕ → ℕ → ℕ → ℝ)
    (q h kvlen nsplit mgc Lv : ℕ) : RState :=
  (List.range nsplit).foldl (splitStep Mid_O Mid_lse q h kvlen nsplit mgc Lv) initState

/-- The value the kernel stores at lane `d` of output row `(q, h)`:
`acc / e_sum` after the loop. -/
noncomputable def stage2Out (Mid_O : ℕ → ℕ → ℕ → ℕ → ℝ) (Mid_lse : ℕ → ℕ → ℕ → ℝ)
    (q h kvlen nsplit mgc Lv : ℕ) (d : ℕ) : ℝ :=
  (stage2Loop Mid_O Mid_lse q h kvlen nsplit mgc Lv).acc d /
    (stage2Loop Mid_O Mid_lse q h kvlen nsplit mgc Lv).e_sum

/-- One grid unit `(cur_batch, cur_head, cur_qo_offs)` of
`_fwd_kernel_stage2_asm`.  It loads `cur_qo_start = qo_indptr[b]`,
`cur_qo_end = qo_indptr[b+1]`, returns (a no-op, modelled as `none`) when
`cur_qo_start + cur_qo_offs > cur_qo_end`, and otherwise reduces
`cur_kv_seq_len = kv_indptr[b+1] - kv_indptr[b]` and stores `acc / e_sum`
masked to `d < Lv`. -/
noncomputable def fwd_kernel_stage2_asm (Mid_O : ℕ → ℕ → ℕ → ℕ → ℝ)
    (Mid_lse : ℕ → ℕ → ℕ → ℝ) (qo_indptr kv_indptr : ℕ → ℕ)
    (nsplit mgc Lv b h o' : ℕ) : Option (ℕ → ℝ) :=
  if qo_indptr (b + 1) < qo_indptr b + o' then none
  else some (fun d => stage2Out Mid_O Mid_lse (qo_indptr b + o') h
      (kv_indptr (b + 1) - kv_indptr b) nsplit mgc Lv d)

/-- Reference semantics: sum of exponentiated attention scores over the KV
positions `[a, b)` (the softmax normalizer of that sub-range). -/
noncomputable def expSum (sc : ℕ → ℝ) (a b : ℕ) : ℝ :=
  ∑ j ∈ Finset.Ico a b, Real.exp (sc j)

/-- Reference semantics: exp-score-weighted sum of value vectors over the KV
positions `[a, b)`, at value lane `d`. -/
noncomputable def expVecSum (sc : ℕ → ℝ) (vv : ℕ → ℕ → ℝ) (a b d : ℕ) : ℝ :=
  ∑ j ∈ Finset.Ico a b, Real.exp (sc j) * vv j d

/-- Reference semantics: full softmax attention output over the unsplit KV
range `[0, n)` at value lane `d`. -/
noncomputable def attnOut (sc : ℕ → ℝ) (vv : ℕ → ℕ → ℝ) (n d : ℕ) : ℝ :=
  expVecSum sc vv 0 n d / expSum sc 0 n

/-- The stage-1 contract at one output row `(q, h)`: every non-empty split `s`
(with the kernel's own chunking) carries the log-sum-exp of its assigned KV
sub-range in `Mid_lse` and the softmax attention output of that sub-range in
`Mid_O` (on lanes `d < Lv`). -/
def splitsConsistent (Mid_O : ℕ → ℕ → ℕ → ℕ → ℝ) (Mid_lse : ℕ → ℕ → ℕ → ℝ)
    (sc : ℕ → ℝ) (vv : ℕ → ℕ → ℝ) (q h kvlen nsplit mgc Lv : ℕ) : Prop :=
  ∀ s, s < nsplit →
    (max mgc (cdiv kvlen nsplit) * s <
        min (max mgc (cdiv kvlen nsplit) * s + max mgc (cdiv kvlen nsplit)) kvlen →
      Mid_lse q s h = Real.log (expSum sc (max mgc (cdiv kvlen nsplit) * s)
          (min (max mgc (cdiv kvlen nsplit) * s + max mgc (cdiv kvlen nsplit)) kvlen)) ∧
      ∀ d, d < Lv → Mid_O q s h d =
        expVecSum sc vv (max mgc (cdiv kvlen nsplit) * s)
            (min (max mgc (cdiv kvlen nsplit) * s + max mgc (cdiv kvlen nsplit)) kvlen) d /
          expSum sc (max mgc (cdiv kvlen nsplit) * s)
            (min (max mgc (cdiv kvlen nsplit) * s + max mgc (cdiv kvlen nsplit)) kvlen))

/-- Loop invariant for the online-softmax reduction: after processing the KV
prefix `[0, m)` the state represents it in shifted form — `e_max` holds some
finite maximum `M`, and rescaling `e_sum`/`acc` by `exp M` recovers the
unnormalized softmax accumulators of the prefix. -/
def invAt (sc : ℕ → ℝ) (vv : ℕ → ℕ → ℝ) (Lv m : ℕ) (st : RState) : Prop :=
  ∃ M : ℝ, st.e_max = some M ∧
    st.e_sum * Real.exp M = expSum sc 0 m ∧
    ∀ d, d < Lv → st.acc d * Real.exp M = expVecSum sc vv 0 m d

/-- Python `(n + cu_num - 1) // cu_num * cu_num`: round `n` up to the nearest
multiple of `cu_num` (the `//` and `*` are left-associated in the source). -/
def ceilToMultiple (n cu_num : ℕ) : ℕ := (n + cu_num - 1) / cu_num * cu_num

/-- One candidate's utilization score in `get_meta_param`
(`bs * i / ceil * avg_kv / (avg_kv + overhead * i)` with `overhead = 84.1`,
`avg_kv = total_kv / bs`), modelled in exact rational arithmetic. -/
def score (bs total_kv cu_num i : ℕ) : ℚ :=
  (bs * i : ℕ) / ((ceilToMultiple (bs * i) cu_num : ℕ) : ℚ) *
      ((total_kv : ℚ) / (bs : ℚ)) /
    ((total_kv : ℚ) / (bs : ℚ) + 841 / 10 * (i : ℕ))

/-- Python `range(a, a + n)` as a list. -/
def pyRange : ℕ → ℕ → List ℕ
  | _, 0 => []
  | a, n + 1 => a :: pyRange (a + 1) n

/-- Stable descending insertion: place `x` in front of the first element whose
key is `≤ x`'s key.  Folding the original list from the right with this gives
exactly Python's stable `sorted(..., key=lambda x: x[0], reverse=True)`:
elements with equal keys keep their original relative order. -/
def insDesc (x : ℚ × ℕ) : List (ℚ × ℕ) → List (ℚ × ℕ)
  | [] => [x]
  | y :: ys => if y.1 ≤ x.1 then x :: y :: ys else y :: insDesc x ys

/-- Python's stable descending sort by first component (see `insDesc`). -/
def sortDesc : List (ℚ × ℕ) → List (ℚ × ℕ)
  | [] => []
  | x :: xs => insDesc x (sortDesc xs)

/-- The first element of a list with maximal key — what `sorted(..., reverse=True)[0]`
returns under stable-sort semantics.  Used to state and prove properties of the
head of `sortDesc`. -/
def firstMaxD : List (ℚ × ℕ) → ℚ × ℕ
  | [] => (0, 0)
  | [x] => x
  | x :: y :: ys => if (firstMaxD (y :: ys)).1 ≤ x.1 then x else firstMaxD (y :: ys)

/-- The list `tmp = [(score(i), i) for i in range(1, 17)]`. -/
def candScores (bs total_kv cu_num : ℕ) : List (ℚ × ℕ) :=
  (pyRange 1 16).map (fun i => (score bs total_kv cu_num i, i))

/-- `sorted(tmp, key=lambda x: x[0], reverse=True)[0][1]`: the split count the
heuristic picks when the caller gave none. -/
def heuristicSplits (bs total_kv cu_num : ℕ) : ℕ :=
  ((sortDesc (candScores bs total_kv cu_num)).headD (0, 0)).2

/-- Failure kinds of the Python driver: the two `assert` messages
(`logit_cap=... is not support yet`, `nhead=... not supported`), the
`ZeroDivisionError` raised by `total_kv / bs` or `// cu_num` on a degenerate
batch, and the `UnboundLocalError` for `qk_head_dim` in `mla_prefill_fwd`. -/
inductive MlaError where
  | logitCapUnsupported : MlaError
  | nheadUnsupported : MlaError
  | zeroDivision : MlaError
  | unboundLocalQkHeadDim : MlaError
deriving DecidableEq

/-- The chunk-size policy table `get_mgc = {16: 16, 128: 16}`. -/
def get_mgc (nhead : ℕ) : Option ℕ :=
  if nhead = 16 then some 16 else if nhead = 128 then some 16 else none

/-- `get_meta_param(num_kv_splits, bs, total_kv, nhead, max_seqlen_q)`.
When `num_kv_splits is None` it runs the utilization heuristic (using the
external `get_cu_num()`, here the explicit argument `cu_num`; a zero `bs` or
`cu_num` would raise `ZeroDivisionError` in Python); an explicitly given
`num_kv_splits` is passed through.  Then `mgc` is looked up in `get_mgc`
(`assert nhead in get_mgc`), overridden to `64` when
`max_seqlen_q == 1 and nhead == 16`.  The `functools.lru_cache` memoization is
behaviorally invisible for a pure function and is not modelled. -/
def get_meta_param (num_kv_splits : Option ℕ) (bs total_kv nhead max_seqlen_q cu_num : ℕ) :
    Except MlaError (ℕ × ℕ) :=
  match
    (match num_kv_splits with
     | some k => Except.ok k
     | none =>
         if bs = 0 then Except.error MlaError.zeroDivision
         else if cu_num = 0 then Except.error MlaError.zeroDivision
         else Except.ok (heuristicSplits bs total_kv cu_num) : Except MlaError ℕ)
  with
  | Except.error e => Except.error e
  | Except.ok ks =>
      match get_mgc nhead with
      | none => Except.error MlaError.nheadUnsupported
      | some m =>
          Except.ok (ks, if max_seqlen_q = 1 ∧ nhead = 16 then 64 else m)

/-- Observable side effects of the drivers, in program order: allocation of the
separate `logits` scratch tensor, allocation of the `attn_lse` tensor, the
stage-1 kernel launch, the stage-2 kernel launch. -/
inductive Effect where
  | allocScratch : Effect
  | allocLse : Effect
  | runStage1 : Effect
  | runStage2 : Effect
deriving DecidableEq

/-- Arguments of `mla_decode_fwd`, reduced to what the control flow reads:
`(total_s, nhead, v_head_dim) = o.shape`, `qk_head_dim` from `kv_buffer.shape`,
the two offset arrays, `bs = qo_indptr.shape[0] - 1`,
`total_kv = kv_indices.shape[0]`, `max_seqlen_q`, the optional `sm_scale`,
`logit_cap`, the expert `num_kv_splits` override, and the external compute-unit
count `cu_num`. -/
structure DecodeArgs where
  total_s : ℕ
  nhead : ℕ
  v_head_dim : ℕ
  qk_head_dim : ℕ
  qo_indptr : ℕ → ℕ
  kv_indptr : ℕ → ℕ
  bs : ℕ
  total_kv : ℕ
  max_seqlen_q : ℕ
  sm_scale : Option ℝ
  logit_cap : ℚ
  num_kv_splits : Option ℕ
  cu_num : ℕ

/-- Result of a successful `mla_decode_fwd` call.  `retOut`/`retLse` are the
contents of the returned pair `(logits, attn_lse)` at logical indices
`[q][s][h][d]` and `[q][s][h]`; on the single-split fast path the returned
`logits` is the caller's `o` viewed 3-D (`fastDirect = true`, index `s = 0`).
`stage2Writes b h o'` is the value vector the stage-2 grid unit
`(b, h, o')` stores into `o` (`none` for out-of-grid or guard-rejected
units); it is `none` everywhere when stage 2 never ran. -/
structure DecodeOk where
  numSplits : ℕ
  mgc : ℕ
  ranStage2 : Bool
  fastDirect : Bool
  retOut : ℕ → ℕ → ℕ → ℕ → ℝ
  retLse : ℕ → ℕ → ℕ → ℝ
  stage2Writes : ℕ → ℕ → ℕ → Option (ℕ → ℝ)

/-- `mla_decode_fwd`.  The stage-1 kernel is a black box that fills the
`logits`/`attn_lse` buffers; its effect is the given `s1out`/`s1lse` contents.
Control flow from the source: `assert logit_cap <= 0` (before any allocation);
`get_meta_param`; scratch `logits` allocation unless `num_kv_splits == 1`
outside the `nhead == 16 and max_seqlen_q == 1` special case (then `logits`
aliases `o`); `attn_lse` allocation; stage-1 launch; early return of
`(logits.view(total_s, nhead, v_head_dim), attn_lse)` on the fast path;
otherwise the stage-2 launch on grid `(bs, nhead, max_seqlen_q)` and return of
`(logits, attn_lse)`. -/
noncomputable def mla_decode_fwd (a : DecodeArgs) (s1out : ℕ → ℕ → ℕ → ℕ → ℝ)
    (s1lse : ℕ → ℕ → ℕ → ℝ) : List Effect × Except MlaError DecodeOk :=
  if 0 < a.logit_cap then ([], Except.error MlaError.logitCapUnsupported)
  else
    match get_meta_param a.num_kv_splits a.bs a.total_kv a.nhead a.max_seqlen_q a.cu_num with
    | Except.error e => ([], Except.error e)
    | Except.ok (ns, mgc0) =>
        if a.nhead = 16 ∧ a.max_seqlen_q = 1 then
          ([Effect.allocScratch, Effect.allocLse, Effect.runStage1, Effect.runStage2],
           Except.ok ⟨ns, mgc0, true, false, s1out, s1lse, fun b h o' =>
              if b < a.bs ∧ h < a.nhead ∧ o' < a.max_seqlen_q then
                fwd_kernel_stage2_asm s1out s1lse a.qo_indptr a.kv_indptr ns mgc0
                  a.v_head_dim b h o'
              else none⟩)
        else if a.nhead = 16 ∨ a.nhead = 128 then
          if ns = 1 then
            ([Effect.allocLse, Effect.runStage1],
             Except.ok ⟨ns, mgc0, false, true, s1out, s1lse, fun _ _ _ => none⟩)
          else
            ([Effect.allocScratch, Effect.allocLse, Effect.runStage1, Effect.runStage2],
             Except.ok ⟨ns, mgc0, true, false, s1out, s1lse, fun b h o' =>
                if b < a.bs ∧ h < a.nhead ∧ o' < a.max_seqlen_q then
                  fwd_kernel_stage2_asm s1out s1lse a.qo_indptr a.kv_indptr ns mgc0
                    a.v_head_dim b h o'
                else none⟩)
        else ([], Except.error MlaError.nheadUnsupported)

/-- Arguments of `mla_prefill_fwd` that its control flow reads. -/
structure PrefillArgs where
  bs : ℕ
  nhead : ℕ
  v_head_dim : ℕ
  qk_head_dim : ℕ
  sm_scale : Option ℝ
  logit_cap : ℚ

/-- Result of a successful `mla_prefill_fwd` call: it always uses one split,
`logits` aliases `o`, and the function returns
`(o.view(bs, nhead, v_head_dim), attn_lse)`. -/
structure PrefillOk where
  numSplits : ℕ
  retOut : ℕ → ℕ → ℕ → ℝ
  retLse : ℕ → ℕ → ℕ → ℝ

/-- `mla_prefill_fwd`.  `assert logit_cap <= 0` comes first; then
`if sm_scale is None: sm_scale = 1.0 / (qk_head_dim**0.5)` reads the local
`qk_head_dim` BEFORE its assignment from `kv_buffer.shape` on the next source
line, which raises `UnboundLocalError` — so the default-scale path never
reaches the stage-1 kernel.  With an explicit scale it allocates `attn_lse`,
launches stage 1 into the `o`-aliased `logits`, and returns. -/
noncomputable def mla_prefill_fwd (a : PrefillArgs) (s1out : ℕ → ℕ → ℕ → ℕ → ℝ)
    (s1lse : ℕ → ℕ → ℕ → ℝ) : List Effect × Except MlaError PrefillOk :=
  if 0 < a.logit_cap then ([], Except.error MlaError.logitCapUnsupported)
  else
    match a.sm_scale with
    | none => ([], Except.error MlaError.unboundLocalQkHeadDim)
    | some _ =>
        ([Effect.allocLse, Effect.runStage1],
         Except.ok ⟨1, fun q h d => s1out q 0 h d, s1lse⟩)

/-! ## Basic kernel-loop lemmas -/

/-- A split whose range `[split_kv_start, split_kv_end)` is empty changes
nothing: the branch body (and with it every load from `Mid_O`/`Mid_lse`) is
not executed, for arbitrary buffer contents and arbitrary incoming state. -/
theorem splitStep_skip (Mid_O : ℕ → ℕ → ℕ → ℕ → ℝ) (Mid_lse : ℕ → ℕ → ℕ → ℝ)
    (q h kvlen nsplit mgc Lv : ℕ) (st : RState) (s : ℕ)
    (hle : min (max mgc (cdiv kvlen nsplit) * s + max mgc (cdiv kvlen nsplit)) kvlen ≤
      max mgc (cdiv kvlen nsplit) * s) :
    splitStep Mid_O Mid_lse q h kvlen nsplit mgc Lv st s = st := by
  simp only [splitStep]
  exact if_neg (Nat.not_lt.mpr hle)

/-- With `cur_kv_seq_len = 0` every split range is empty, so the whole loop
leaves the initial state untouched. -/
theorem stage2Loop_zero_kvlen (Mid_O : ℕ → ℕ → ℕ → ℕ → ℝ) (Mid_lse : ℕ → ℕ → ℕ → ℝ)
    (q h nsplit mgc Lv : ℕ) :
    stage2Loop Mid_O Mid_lse q h 0 nsplit mgc Lv = initState := by
  unfold stage2Loop
  have step : ∀ (l : List ℕ) (st : RState),
      List.foldl (splitStep Mid_O Mid_lse q h 0 nsplit mgc Lv) st l = st := by
    intro l
    induction l with
    | nil => intro st; rfl
    | cons s tl ih =>
        intro st
        rw [List.foldl_cons,
          splitStep_skip Mid_O Mid_lse q h 0 nsplit mgc Lv st s (by simp), ih]
  exact step (List.range nsplit) initState

/-! ## C3: the grid-unit guard -/

/-- C3: a stage-2 grid unit `(b, h, o)` performs the reduction and writes an
output exactly when `qo_indptr[b] + o ≤ qo_indptr[b+1]`, is a pure no-op
(returning `none`, reading nothing) when `qo_indptr[b] + o > qo_indptr[b+1]`,
and in particular the unit at offset `o = qo_indptr[b+1] - qo_indptr[b]` (one
past the sequence's last query) passes the non-strict bound and executes. -/
theorem C3_stage2_guard_nonstrict (Mid_O : ℕ → ℕ → ℕ → ℕ → ℝ)
    (Mid_lse : ℕ → ℕ → ℕ → ℝ) (qo kv : ℕ → ℕ) (nsplit mgc Lv b h o' : ℕ) :
    ((fwd_kernel_stage2_asm Mid_O Mid_lse qo kv nsplit mgc Lv b h o').isSome ↔
        qo b + o' ≤ qo (b + 1)) ∧
    (qo (b + 1) < qo b + o' →
        fwd_kernel_stage2_asm Mid_O Mid_lse qo kv nsplit mgc Lv b h o' = none) ∧
    (qo b ≤ qo (b + 1) →
        (fwd_kernel_stage2_asm Mid_O Mid_lse qo kv nsplit mgc Lv b h
          (qo (b + 1) - qo b)).isSome) := by
  refine ⟨?_, ?_, ?_⟩
  · unfold fwd_kernel_stage2_asm
    by_cases hlt : qo (b + 1) < qo b + o'
    · simp [hlt, Nat.not_le.mpr hlt]
    · simp [hlt, Nat.not_lt.mp hlt]
  · intro hlt
    unfold fwd_kernel_stage2_asm
    exact if_pos hlt
  · intro hle
    unfold fwd_kernel_stage2_asm
    rw [if_neg (by omega)]
    rfl

/-- Witness for C3 at a concrete input: `qo_indptr = [0, 1, 2, ...]`, batch 0,
offset `1 = qo_indptr[1] - qo_indptr[0]` (the one-past-the-end unit) executes. -/
theorem C3_witness :
    (fun n => n : ℕ → ℕ) 0 ≤ (fun n => n : ℕ → ℕ) 1 ∧
    (fwd_kernel_stage2_asm (fun _ _ _ _ => 0) (fun _ _ _ => 0) (fun n => n)
      (fun n => n) 1 16 1 0 0 1).isSome :=
  ⟨Nat.zero_le 1,
    (C3_stage2_guard_nonstrict (fun _ _ _ _ => 0) (fun _ _ _ => 0) (fun n => n)
      (fun n => n) 1 16 1 0 0 1).2.2 (Nat.zero_le 1)⟩

/-! ## C5: empty splits are skipped -/

/-- C5: in the stage-2 loop with
`chunk_size = max(min_chunk_size, ceil(cur_kv_len / num_splits))`,
`split_start = chunk_size * s`, `split_end = min(split_start + chunk_size,
cur_kv_len)`, every split `s` with `split_end ≤ split_start` is skipped: the
iteration returns the incoming state unchanged (so `e_max`, `e_sum`, `acc` are
untouched) for ARBITRARY `Mid_O`/`Mid_lse` contents — hence the split's
`partial_output` and `partial_lse` entries are never read. -/
theorem C5_empty_split_skipped (Mid_O : ℕ → ℕ → ℕ → ℕ → ℝ)
    (Mid_lse : ℕ → ℕ → ℕ → ℝ) (q h kvlen nsplit mgc Lv : ℕ) (st : RState) (s : ℕ)
    (hle : min (max mgc (cdiv kvlen nsplit) * s + max mgc (cdiv kvlen nsplit)) kvlen ≤
      max mgc (cdiv kvlen nsplit) * s) :
    splitStep Mid_O Mid_lse q h kvlen nsplit mgc Lv st s = st :=
  splitStep_skip Mid_O Mid_lse q h kvlen nsplit mgc Lv st s hle

/-- Witness for C5 at a concrete input: `cur_kv_len = 5`, 16 splits,
`min_chunk_size = 16`, split `s = 1` is empty (`split_start = 16`,
`split_end = min(32, 5) = 5`) and leaves the state unchanged even with
poisoned partial buffers. -/
theorem C5_witness :
    min (max 16 (cdiv 5 16) * 1 + max 16 (cdiv 5 16)) 5 ≤ max 16 (cdiv 5 16) * 1 ∧
    splitStep (fun _ _ _ _ => 99) (fun _ _ _ => 99) 0 0 5 16 16 1 initState 1 = initState :=
  ⟨by decide,
    C5_empty_split_skipped (fun _ _ _ _ => 99) (fun _ _ _ => 99) 0 0 5 16 16 1
      initState 1 (by decide)⟩

/-! ## C9: zero-length sequences are NOT special-cased -/

/-- C9 counterexample: with a zero-length KV range (`cur_kv_len = 0`,
`NUM_KV_SPLITS = 4`, `mgc = 16`) and poisoned partial buffers, the loop ends
in the initial state — `e_sum = 0` and `acc = 0` — and the kernel's store
writes `acc / e_sum = 0 / 0` (NaN on hardware): the division by zero is
propagated silently, so the claim that the reducer "explicitly handles" this
case with a defined output is false. -/
theorem C9_counterexample :
    (stage2Loop (fun _ _ _ _ => 5) (fun _ _ _ => 7) 0 0 0 4 16 1).e_sum = 0 ∧
    (stage2Loop (fun _ _ _ _ => 5) (fun _ _ _ => 7) 0 0 0 4 16 1).acc 0 = 0 ∧
    stage2Out (fun _ _ _ _ => 5) (fun _ _ _ => 7) 0 0 0 4 16 1 0 = 0 / 0 := by
  have hz := stage2Loop_zero_kvlen (fun _ _ _ _ => (5 : ℝ)) (fun _ _ _ => (7 : ℝ)) 0 0 4 16 1
  refine ⟨by rw [hz]; rfl, by rw [hz]; rfl, ?_⟩
  show (stage2Loop _ _ 0 0 0 4 16 1).acc 0 / (stage2Loop _ _ 0 0 0 4 16 1).e_sum = 0 / 0
  rw [hz]
  rfl

/-- C9 amended: for a sequence with `cur_kv_len = 0` every split is empty and
skipped, so the stage-2 reducer reaches its store with the initial state
(`e_sum = 0`, `acc = 0`, `e_max = -inf`) and writes `acc / e_sum` with a zero
denominator (`0 / 0`, NaN in float arithmetic); there is no special-case
handling of this degenerate input. -/
theorem C9_zero_kvlen_divides_by_zero (Mid_O : ℕ → ℕ → ℕ → ℕ → ℝ)
    (Mid_lse : ℕ → ℕ → ℕ → ℝ) (q h nsplit mgc Lv : ℕ) :
    stage2Loop Mid_O Mid_lse q h 0 nsplit mgc Lv = initState ∧
    (stage2Loop Mid_O Mid_lse q h 0 nsplit mgc Lv).e_sum = 0 ∧
    ∀ d, stage2Out Mid_O Mid_lse q h 0 nsplit mgc Lv d = 0 / 0 := by
  have hz := stage2Loop_zero_kvlen Mid_O Mid_lse q h nsplit mgc Lv
  refine ⟨hz, by rw [hz]; rfl, fun d => ?_⟩
  show (stage2Loop Mid_O Mid_lse q h 0 nsplit mgc Lv).acc d /
      (stage2Loop Mid_O Mid_lse q h 0 nsplit mgc Lv).e_sum = 0 / 0
  rw [hz]
  rfl

/-! ## The split-count heuristic: stable descending sort and its head -/

theorem insDesc_ne_nil (x : ℚ × ℕ) (l : List (ℚ × ℕ)) : insDesc x l ≠ [] := by
  cases l with
  | nil => simp [insDesc]
  | cons y ys =>
      simp only [insDesc]
      split <;> simp

theorem sortDesc_ne_nil (x : ℚ × ℕ) (xs : List (ℚ × ℕ)) : sortDesc (x :: xs) ≠ [] :=
  insDesc_ne_nil x (sortDesc xs)

/-- The head of the stable descending sort is the first element of maximal key. -/
theorem headD_sortDesc_eq_firstMaxD :
    ∀ l : List (ℚ × ℕ), l ≠ [] → (sortDesc l).headD (0, 0) = firstMaxD l := by
  intro l
  induction l with
  | nil => intro hc; exact absurd rfl hc
  | cons x xs ih =>
      intro _
      cases xs with
      | nil => rfl
      | cons y ys =>
          obtain ⟨z, zs, hz⟩ := List.exists_cons_of_ne_nil (sortDesc_ne_nil y ys)
          have ihz := ih (by simp)
          show (insDesc x (sortDesc (y :: ys))).headD (0, 0) = firstMaxD (x :: y :: ys)
          rw [hz] at ihz ⊢
          simp only [List.headD_cons] at ihz
          simp only [insDesc, firstMaxD, ← ihz]
          by_cases hc : z.1 ≤ x.1 <;> simp [hc]

theorem pyRange_ne_nil (a n : ℕ) (hn : 1 ≤ n) : pyRange a n ≠ [] := by
  cases n with
  | zero => omega
  | succ k => simp [pyRange]

/-- Properties of the first maximal element of
`[(g a, a), (g (a+1), a+1), ..., (g (a+n-1), a+n-1)]`: its key is the value of
`g` at its index, its index is in range, its key bounds every candidate's key,
and every strictly earlier candidate has strictly smaller key. -/
theorem firstMaxD_pyRange_spec (g : ℕ → ℚ) :
    ∀ n a, 1 ≤ n →
      ((firstMaxD ((pyRange a n).map (fun i => (g i, i)))).1 =
          g (firstMaxD ((pyRange a n).map (fun i => (g i, i)))).2 ∧
        a ≤ (firstMaxD ((pyRange a n).map (fun i => (g i, i)))).2 ∧
        (firstMaxD ((pyRange a n).map (fun i => (g i, i)))).2 < a + n) ∧
      (∀ j, a ≤ j → j < a + n →
        g j ≤ g (firstMaxD ((pyRange a n).map (fun i => (g i, i)))).2) ∧
      (∀ j, a ≤ j → j < a + n →
        j < (firstMaxD ((pyRange a n).map (fun i => (g i, i)))).2 →
        g j < g (firstMaxD ((pyRange a n).map (fun i => (g i, i)))).2) := by
  intro n
  induction n with
  | zero => intro a ha; omega
  | succ k ih =>
      intro a _
      cases k with
      | zero =>
          have hfm : firstMaxD ((pyRange a (0 + 1)).map (fun i => (g i, i))) = (g a, a) := rfl
          rw [hfm]
          refine ⟨⟨rfl, le_refl a, show a < a + (0 + 1) by omega⟩, ?_, ?_⟩
          · intro j hj1 hj2
            have hja : j = a := by omega
            subst hja
            exact le_refl _
          · intro j hj1 hj2 hj3
            have hj3' : j < a := hj3
            omega
      | succ k' =>
          have ihm := ih (a + 1) (by omega)
          have hfm : firstMaxD ((pyRange a (k' + 1 + 1)).map (fun i => (g i, i))) =
              if (firstMaxD ((pyRange (a + 1) (k' + 1)).map (fun i => (g i, i)))).1 ≤ g a
              then (g a, a)
              else firstMaxD ((pyRange (a + 1) (k' + 1)).map (fun i => (g i, i))) := rfl
          set m' := firstMaxD ((pyRange (a + 1) (k' + 1)).map (fun i => (g i, i))) with hm'
          by_cases hc : m'.1 ≤ g a
          · rw [hfm, if_pos hc]
            refine ⟨⟨rfl, le_refl a, show a < a + (k' + 1 + 1) by omega⟩, ?_, ?_⟩
            · intro j hj1 hj2
              rcases Nat.eq_or_lt_of_le hj1 with hje | hjl
              · subst hje
                exact le_refl _
              · have hb := ihm.2.1 j hjl (by omega)
                have hb2 : g m'.2 ≤ g a := by
                  rw [← ihm.1.1]
                  exact hc
                exact le_trans hb hb2
            · intro j hj1 hj2 hj3
              have hj3' : j < a := hj3
              omega
          · rw [hfm, if_neg hc]
            have hlt : g a < g m'.2 := by
              rw [← ihm.1.1]
              exact not_le.mp hc
            refine ⟨⟨ihm.1.1, by omega, by omega⟩, ?_, ?_⟩
            · intro j hj1 hj2
              rcases Nat.eq_or_lt_of_le hj1 with hje | hjl
              · subst hje
                exact le_of_lt hlt
              · exact ihm.2.1 j hjl (by omega)
            · intro j hj1 hj2 hj3
              rcases Nat.eq_or_lt_of_le hj1 with hje | hjl
              · subst hje
                exact hlt
              · exact ihm.2.2 j hjl (by omega) hj3

/-- `heuristicSplits` is the lowest-indexed maximizer of `score` over `1..16`. -/
theorem heuristicSplits_spec (bs total_kv cu_num : ℕ) :
    heuristicSplits bs total_kv cu_num =
      (firstMaxD (candScores bs total_kv cu_num)).2 ∧
    1 ≤ heuristicSplits bs total_kv cu_num ∧ heuristicSplits bs total_kv cu_num ≤ 16 ∧
    (∀ j, 1 ≤ j → j ≤ 16 →
      score bs total_kv cu_num j ≤ score bs total_kv cu_num (heuristicSplits bs total_kv cu_num)) ∧
    (∀ j, 1 ≤ j → j ≤ 16 → j < heuristicSplits bs total_kv cu_num →
      score bs total_kv cu_num j < score bs total_kv cu_num (heuristicSplits bs total_kv cu_num)) := by
  have hnil : candScores bs total_kv cu_num ≠ [] := by
    unfold candScores
    intro hc
    exact pyRange_ne_nil 1 16 (by omega) (List.map_eq_nil_iff.mp hc)
  have hhead : heuristicSplits bs total_kv cu_num =
      (firstMaxD (candScores bs total_kv cu_num)).2 := by
    unfold heuristicSplits
    rw [headD_sortDesc_eq_firstMaxD _ hnil]
  have hspec := firstMaxD_pyRange_spec (score bs total_kv cu_num) 16 1 (by omega)
  rw [show (candScores bs total_kv cu_num) =
    (pyRange 1 16).map (fun i => (score bs total_kv cu_num i, i)) from rfl] at hhead
  refine ⟨hhead, ?_, ?_, ?_, ?_⟩
  · rw [hhead]; exact hspec.1.2.1
  · rw [hhead]; have := hspec.1.2.2; omega
  · intro j hj1 hj2
    rw [hhead]
    exact hspec.2.1 j hj1 (by omega)
  · intro j hj1 hj2 hj3
    rw [hhead]
    rw [hhead] at hj3
    exact hspec.2.2 j hj1 (by omega) hj3

/-! ## C6: the split-count heuristic -/

/-- C6: `get_meta_param` passes an explicitly given `num_kv_splits` through
unchanged; when none is given it returns the candidate `i ∈ 1..16` maximizing
`score(i) = (bs*i / ceilToMultiple(bs*i, cu_num)) * avg_kv / (avg_kv + 84.1*i)`
(`avg_kv = total_kv / bs`), and among candidates of equal maximal score the
lowest-indexed one wins (stable descending sort, first element taken). -/
theorem C6_resolve_splits (bs total_kv cu_num nhead msq k : ℕ) (m m' : ℕ × ℕ)
    (hsome : get_meta_param (some k) bs total_kv nhead msq cu_num = Except.ok m)
    (hnone : get_meta_param none bs total_kv nhead msq cu_num = Except.ok m') :
    m.1 = k ∧
    m'.1 = heuristicSplits bs total_kv cu_num ∧
    1 ≤ m'.1 ∧ m'.1 ≤ 16 ∧
    (∀ j, 1 ≤ j → j ≤ 16 →
      score bs total_kv cu_num j ≤ score bs total_kv cu_num m'.1) ∧
    (∀ j, 1 ≤ j → j ≤ 16 →
      score bs total_kv cu_num j = score bs total_kv cu_num m'.1 → m'.1 ≤ j) := by
  have hs := heuristicSplits_spec bs total_kv cu_num
  have hm : m.1 = k := by
    unfold get_meta_param at hsome
    cases hmg : get_mgc nhead with
    | none => rw [hmg] at hsome; simp at hsome
    | some mg =>
        rw [hmg] at hsome
        simp only [Except.ok.injEq] at hsome
        rw [← hsome]
  have hm' : m'.1 = heuristicSplits bs total_kv cu_num := by
    unfold get_meta_param at hnone
    by_cases h0 : bs = 0
    · rw [if_pos h0] at hnone; simp at hnone
    · rw [if_neg h0] at hnone
      by_cases h1 : cu_num = 0
      · rw [if_pos h1] at hnone; simp at hnone
      · rw [if_neg h1] at hnone
        cases hmg : get_mgc nhead with
        | none => rw [hmg] at hnone; simp at hnone
        | some mg =>
            rw [hmg] at hnone
            simp only [Except.ok.injEq] at hnone
            rw [← hnone]
  refine ⟨hm, hm', ?_, ?_, ?_, ?_⟩
  · rw [hm']; exact hs.2.1
  · rw [hm']; exact hs.2.2.1
  · intro j hj1 hj2
    rw [hm']
    exact hs.2.2.2.1 j hj1 hj2
  · intro j hj1 hj2 heq
    rw [hm'] at heq ⊢
    by_contra hlt
    have := hs.2.2.2.2 j hj1 hj2 (by omega)
    rw [heq] at this
    exact lt_irrefl _ this

/-- Witness for C6: with `bs = 1`, `total_kv = 21`, `cu_num = 80` an explicit
override `3` is passed through, and the no-override call returns the
heuristic's pick (together with the `mgc = 64` single-token override). -/
theorem C6_witness :
    get_meta_param (some 3) 1 21 16 1 80 = Except.ok (3, 64) ∧
    get_meta_param none 1 21 16 1 80 = Except.ok (heuristicSplits 1 21 80, 64) ∧
    ((3, 64) : ℕ × ℕ).1 = 3 ∧ 1 ≤ ((heuristicSplits 1 21 80, 64) : ℕ × ℕ).1 := by
  have h := C6_resolve_splits 1 21 80 16 1 3 (3, 64) (heuristicSplits 1 21 80, 64) rfl rfl
  exact ⟨rfl, rfl, h.1, h.2.2.1⟩

/-! ## C7: the min-chunk-size policy -/

/-- C7: `get_meta_param` resolves `min_chunk_size` to `64` when
`max_seqlen_q = 1` and `nhead = 16`, to `16` for `nhead ∈ {16, 128}` otherwise,
and fails with the unsupported-configuration (`assert nhead in get_mgc`) error
for every other `nhead`.  (`0 < bs`/`0 < cu_num` keep the heuristic's Python
division well-defined on the no-override path.) -/
theorem C7_min_chunk_size (requested : Option ℕ) (bs total_kv nhead msq cu_num : ℕ)
    (hbs : 0 < bs) (hcu : 0 < cu_num) :
    (msq = 1 ∧ nhead = 16 →
      (get_meta_param requested bs total_kv nhead msq cu_num).map Prod.snd =
        Except.ok 64) ∧
    ((nhead = 16 ∨ nhead = 128) → ¬(msq = 1 ∧ nhead = 16) →
      (get_meta_param requested bs total_kv nhead msq cu_num).map Prod.snd =
        Except.ok 16) ∧
    (nhead ≠ 16 → nhead ≠ 128 →
      get_meta_param requested bs total_kv nhead msq cu_num =
        Except.error MlaError.nheadUnsupported) := by
  have hbs' : bs ≠ 0 := by omega
  have hcu' : cu_num ≠ 0 := by omega
  refine ⟨?_, ?_, ?_⟩
  · rintro ⟨h1, h2⟩
    subst h1
    subst h2
    cases requested with
    | some k => simp [get_meta_param, get_mgc, Except.map]
    | none => simp [get_meta_param, get_mgc, hbs', hcu', Except.map]
  · intro hn hns
    have hmg : get_mgc nhead = some 16 := by
      rcases hn with h16 | h128
      · subst h16; rfl
      · subst h128; rfl
    cases requested with
    | some k => simp [get_meta_param, hmg, hns, Except.map]
    | none => simp [get_meta_param, hmg, hns, hbs', hcu', Except.map]
  · intro h16 h128
    have hmg : get_mgc nhead = none := by
      unfold get_mgc
      rw [if_neg h16, if_neg h128]
    cases requested with
    | some k => simp [get_meta_param, hmg]
    | none => simp [get_meta_param, hmg, hbs', hcu']

/-- Witness for C7: the boundary scenario `bs = 1`, `kv_len = 21`,
`nhead = 16`, `max_seqlen_q = 1` resolves `min_chunk_size = 64`, not `16`. -/
theorem C7_witness :
    0 < 1 ∧ 0 < 80 ∧ ((1 : ℕ) = 1 ∧ (16 : ℕ) = 16) ∧
    (get_meta_param none 1 21 16 1 80).map Prod.snd = Except.ok 64 :=
  ⟨Nat.one_pos, by omega, ⟨rfl, rfl⟩,
    (C7_min_chunk_size none 1 21 16 1 80 Nat.one_pos (by omega)).1 ⟨rfl, rfl⟩⟩

/-! ## C8: positive logit_cap fails fast in both entry points -/

theorem get_meta_param_ne_logitCap (r : Option ℕ) (bs tkv nh msq cu : ℕ) :
    get_meta_param r bs tkv nh msq cu ≠ Except.error MlaError.logitCapUnsupported := by
  unfold get_meta_param
  cases r with
  | some k => cases hmg : get_mgc nh <;> simp [hmg]
  | none =>
      by_cases h0 : bs = 0
      · simp [h0]
      · by_cases h1 : cu = 0
        · simp [h0, h1]
        · cases hmg : get_mgc nh <;> simp [h0, h1, hmg]

/-- C8: both entry points return the `assert logit_cap <= 0` failure exactly
when `logit_cap > 0`, and that failure happens at call entry with an empty
effect list — before any scratch/lse buffer is allocated and before any kernel
runs, so no partial results are produced. -/
theorem C8_logit_cap_fails_fast (a : DecodeArgs) (pa : PrefillArgs)
    (s1o : ℕ → ℕ → ℕ → ℕ → ℝ) (s1l : ℕ → ℕ → ℕ → ℝ)
    (p1o : ℕ → ℕ → ℕ → ℕ → ℝ) (p1l : ℕ → ℕ → ℕ → ℝ) :
    (mla_decode_fwd a s1o s1l = ([], Except.error MlaError.logitCapUnsupported) ↔
      0 < a.logit_cap) ∧
    (mla_prefill_fwd pa p1o p1l = ([], Except.error MlaError.logitCapUnsupported) ↔
      0 < pa.logit_cap) := by
  constructor
  · constructor
    · intro h
      by_contra hc
      unfold mla_decode_fwd at h
      rw [if_neg hc] at h
      cases hmeta : get_meta_param a.num_kv_splits a.bs a.total_kv a.nhead
          a.max_seqlen_q a.cu_num with
      | error e =>
          rw [hmeta] at h
          simp only [Prod.mk.injEq, Except.error.injEq] at h
          exact get_meta_param_ne_logitCap _ _ _ _ _ _ (h.2 ▸ hmeta)
      | ok p =>
          obtain ⟨ns, mgc0⟩ := p
          rw [hmeta] at h
          dsimp only at h
          split_ifs at h <;> simp at h
    · intro hc
      unfold mla_decode_fwd
      rw [if_pos hc]
  · constructor
    · intro h
      by_contra hc
      unfold mla_prefill_fwd at h
      rw [if_neg hc] at h
      cases hs : pa.sm_scale with
      | none => rw [hs] at h; simp at h
      | some v => rw [hs] at h; simp at h
    · intro hc
      unfold mla_prefill_fwd
      rw [if_pos hc]

/-! ## C10: the prefill default scale reads qk_head_dim before assignment -/

/-- C10: every `mla_prefill_fwd` call that omits `sm_scale` (and passes the
`logit_cap` precondition checked first) raises the name-resolution error —
the default `1.0 / (qk_head_dim**0.5)` reads the local `qk_head_dim` before
its assignment from `kv_buffer.shape` — with an empty effect list, i.e.
before the stage-1 kernel is ever invoked; so callers must pass an explicit
scale to use the function at all. -/
theorem C10_default_scale_unbound (a : PrefillArgs)
    (s1o : ℕ → ℕ → ℕ → ℕ → ℝ) (s1l : ℕ → ℕ → ℕ → ℝ)
    (hcap : a.logit_cap ≤ 0) (hnone : a.sm_scale = none) :
    mla_prefill_fwd a s1o s1l = ([], Except.error MlaError.unboundLocalQkHeadDim) := by
  unfold mla_prefill_fwd
  rw [if_neg (not_lt.mpr hcap), hnone]

/-- Witness for C10 at a concrete call. -/
theorem C10_witness :
    (0 : ℚ) ≤ 0 ∧
    mla_prefill_fwd ⟨1, 128, 512, 576, none, 0⟩ (fun _ _ _ _ => 0) (fun _ _ _ => 0) =
      ([], Except.error MlaError.unboundLocalQkHeadDim) :=
  ⟨le_refl 0,
    C10_default_scale_unbound ⟨1, 128, 512, 576, none, 0⟩ (fun _ _ _ _ => 0)
      (fun _ _ _ => 0) (le_refl 0) rfl⟩

/-! ## C4: the single-split fast path -/

/-- Stage 2 with a single split and a non-empty KV range reproduces the
stage-1 partial verbatim: the only split covers `[0, cur_kv_len)`, the merge
from the initial state gives `e_sum = 1` and `acc = partial_output`, and the
store writes `acc / 1`. -/
theorem stage2Out_single_split (Mid_O : ℕ → ℕ → ℕ → ℕ → ℝ)
    (Mid_lse : ℕ → ℕ → ℕ → ℝ) (q h kvlen mgc Lv d : ℕ)
    (hkv : 1 ≤ kvlen) (hd : d < Lv) :
    stage2Out Mid_O Mid_lse q h kvlen 1 mgc Lv d = Mid_O q 0 h d := by
  have hcd : cdiv kvlen 1 = kvlen := by
    unfold cdiv
    omega
  have hpos : max mgc (cdiv kvlen 1) * 0 <
      min (max mgc (cdiv kvlen 1) * 0 + max mgc (cdiv kvlen 1)) kvlen := by
    rw [hcd]
    omega
  unfold stage2Out stage2Loop
  rw [show List.range 1 = [0] from rfl, List.foldl_cons, List.foldl_nil]
  unfold splitStep
  rw [if_pos hpos]
  show (mergeStep _ _ initState).acc d / (mergeStep _ _ initState).e_sum = _
  unfold mergeStep initState
  simp [sub_self, Real.exp_zero, hd]

/-- C4 amended: whenever the resolved `num_kv_splits` is `1` and the
`max_seqlen_q == 1 and nhead == 16` special case does not hold (with a
supported head count and a non-positive `logit_cap`), `mla_decode_fwd` writes
stage-1 results directly into the caller's output buffer (the returned tensor
is the reshaped `o`-alias holding `s1out`), allocates no separate scratch,
skips stage 2 entirely and returns immediately; and for every position whose
sequence has a NON-ZERO KV length this direct result coincides, lane by lane,
with what the stage-2 reduction with one split would produce from the same
partial results.  (For a zero-length KV range the two differ: stage 2 would
divide by `e_sum = 0` — see the counterexample.) -/
theorem C4_single_split_direct (a : DecodeArgs)
    (s1out : ℕ → ℕ → ℕ → ℕ → ℝ) (s1lse : ℕ → ℕ → ℕ → ℝ) (mgc0 : ℕ)
    (hmeta : get_meta_param a.num_kv_splits a.bs a.total_kv a.nhead a.max_seqlen_q
        a.cu_num = Except.ok (1, mgc0))
    (hnsp : ¬(a.max_seqlen_q = 1 ∧ a.nhead = 16))
    (hnh : a.nhead = 16 ∨ a.nhead = 128)
    (hcap : a.logit_cap ≤ 0) :
    mla_decode_fwd a s1out s1lse =
      ([Effect.allocLse, Effect.runStage1],
        Except.ok ⟨1, mgc0, false, true, s1out, s1lse, fun _ _ _ => none⟩) ∧
    (∀ q h kvlen d, 1 ≤ kvlen → d < a.v_head_dim →
      stage2Out s1out s1lse q h kvlen 1 mgc0 a.v_head_dim d = s1out q 0 h d) := by
  constructor
  · unfold mla_decode_fwd
    rw [if_neg (not_lt.mpr hcap), hmeta]
    dsimp only
    rw [if_neg (fun hcon => hnsp ⟨hcon.2, hcon.1⟩), if_pos hnh, if_pos rfl]
  · intro q h kvlen d hkv hd
    exact stage2Out_single_split s1out s1lse q h kvlen mgc0 a.v_head_dim d hkv hd

/-- Witness for C4 on a concrete fast-path call (`nhead = 128`,
`num_kv_splits = 1` explicitly, `max_seqlen_q = 1`). -/
theorem C4_witness :
    get_meta_param (some 1) 1 1 128 1 80 = Except.ok (1, 16) ∧
    mla_decode_fwd ⟨1, 128, 1, 576, (fun n => n), (fun n => n), 1, 1, 1, none, 0, some 1, 80⟩
        (fun _ _ _ _ => 2) (fun _ _ _ => 3) =
      ([Effect.allocLse, Effect.runStage1],
        Except.ok ⟨1, 16, false, true, (fun _ _ _ _ => 2), (fun _ _ _ => 3),
          fun _ _ _ => none⟩) ∧
    stage2Out (fun _ _ _ _ => 2) (fun _ _ _ => 3) 0 0 1 1 16 1 0 = 2 := by
  have h := C4_single_split_direct
      ⟨1, 128, 1, 576, (fun n => n), (fun n => n), 1, 1, 1, none, 0, some 1, 80⟩
      (fun _ _ _ _ => 2) (fun _ _ _ => 3) 16 rfl (by decide) (Or.inr rfl) (le_refl 0)
  exact ⟨rfl, h.1, h.2 0 0 1 0 (le_refl 1) Nat.one_pos⟩

/-- C4 counterexample: for a sequence with ZERO KV length the direct path and
the one-split stage-2 reduction are NOT identical — with the stage-1 partial
equal to `1`, the direct path returns `1` while the one-split reduction skips
its only (empty) split, reaches the store with `e_sum = 0`, and divides zero
by zero (NaN on hardware; `0` under Lean's total real division), which
differs from `1` either way. -/
theorem C4_counterexample :
    (stage2Loop (fun _ _ _ _ => 1) (fun _ _ _ => 0) 0 0 0 1 16 1).e_sum = 0 ∧
    stage2Out (fun _ _ _ _ => 1) (fun _ _ _ => 0) 0 0 0 1 16 1 0 = 0 ∧
    (fun _ _ _ _ => (1 : ℝ)) 0 0 0 0 = 1 ∧ (0 : ℝ) ≠ 1 := by
  have hz := stage2Loop_zero_kvlen (fun _ _ _ _ => (1 : ℝ)) (fun _ _ _ => (0 : ℝ)) 0 0 1 16 1
  refine ⟨by rw [hz]; rfl, ?_, rfl, by norm_num⟩
  show (stage2Loop _ _ 0 0 0 1 16 1).acc 0 / (stage2Loop _ _ 0 0 0 1 16 1).e_sum = 0
  rw [hz]
  show (0 : ℝ) / 0 = 0
  exact zero_div 0

/-! ## C2: what decode_forward actually returns -/

/-- C2 amended: every successful `mla_decode_fwd` call returns the stage-1
buffers themselves: the returned lse tensor is the PER-SPLIT `attn_lse`
buffer, unchanged (shape `(total_s, num_splits, nhead, 1)`), never an
aggregate per-`(q, h)` normalizer; the returned first tensor is the stage-1
partial-output buffer (aliasing the caller's `o` reshaped on the single-split
fast path, where stage 2 is skipped); on the multi-split path the final
attention output is delivered only through the stage-2 kernel's writes into
`o`. -/
theorem C2_returns_per_split_lse (a : DecodeArgs)
    (s1out : ℕ → ℕ → ℕ → ℕ → ℝ) (s1lse : ℕ → ℕ → ℕ → ℝ)
    (es : List Effect) (r : DecodeOk)
    (hok : mla_decode_fwd a s1out s1lse = (es, Except.ok r)) :
    r.retLse = s1lse ∧ r.retOut = s1out ∧
    (r.ranStage2 = false →
      r.fastDirect = true ∧ r.numSplits = 1 ∧ r.stage2Writes = fun _ _ _ => none) ∧
    (r.ranStage2 = true →
      r.stage2Writes = fun b h o' =>
        if b < a.bs ∧ h < a.nhead ∧ o' < a.max_seqlen_q then
          fwd_kernel_stage2_asm s1out s1lse a.qo_indptr a.kv_indptr r.numSplits r.mgc
            a.v_head_dim b h o'
        else none) := by
  unfold mla_decode_fwd at hok
  by_cases hcap : 0 < a.logit_cap
  · rw [if_pos hcap] at hok
    simp at hok
  · rw [if_neg hcap] at hok
    cases hmeta : get_meta_param a.num_kv_splits a.bs a.total_kv a.nhead
        a.max_seqlen_q a.cu_num with
    | error e =>
        rw [hmeta] at hok
        simp at hok
    | ok p =>
        obtain ⟨ns, mgc0⟩ := p
        rw [hmeta] at hok
        dsimp only at hok
        split_ifs at hok with h1 h2 h3
        · simp only [Prod.mk.injEq, Except.ok.injEq] at hok
          rw [← hok.2]
          refine ⟨rfl, rfl, ?_, ?_⟩
          · intro hfalse
            exact absurd hfalse (by simp)
          · intro _
            rfl
        · simp only [Prod.mk.injEq, Except.ok.injEq] at hok
          rw [← hok.2]
          refine ⟨rfl, rfl, ?_, ?_⟩
          · intro _
            exact ⟨rfl, h3, rfl⟩
          · intro htrue
            exact absurd htrue (by simp)
        · simp only [Prod.mk.injEq, Except.ok.injEq] at hok
          rw [← hok.2]
          refine ⟨rfl, rfl, ?_, ?_⟩
          · intro hfalse
            exact absurd hfalse (by simp)
          · intro _
            rfl
        · simp at hok

/-- Witness for C2 on a concrete fast-path call (`nhead = 16`,
`max_seqlen_q = 2`, explicit single split). -/
theorem C2_witness :
    ∃ r : DecodeOk,
      mla_decode_fwd ⟨1, 16, 1, 576, (fun n => n), (fun n => n), 1, 1, 2, none, 0, some 1, 80⟩
          (fun _ _ _ _ => 4) (fun _ _ _ => 5) =
        ([Effect.allocLse, Effect.runStage1], Except.ok r) ∧
      r.retLse = (fun _ _ _ => 5) ∧ r.retOut = (fun _ _ _ _ => 4) := by
  have hok : mla_decode_fwd
      ⟨1, 16, 1, 576, (fun n => n), (fun n => n), 1, 1, 2, none, 0, some 1, 80⟩
      (fun _ _ _ _ => 4) (fun _ _ _ => 5) =
      ([Effect.allocLse, Effect.runStage1],
        Except.ok ⟨1, 16, false, true, (fun _ _ _ _ => 4), (fun _ _ _ => 5),
          fun _ _ _ => none⟩) := by
    unfold mla_decode_fwd
    rw [if_neg (by norm_num)]
    rw [show get_meta_param (some 1) 1 1 16 2 80 = Except.ok (1, 16) from rfl]
    dsimp only
    rw [if_neg (by decide), if_pos (Or.inl rfl), if_pos rfl]
  have h := C2_returns_per_split_lse _ _ _ _ _ hok
  exact ⟨_, hok, h.1, h.2.1⟩

/-- C2 counterexample: on the multi-split stage-2 path (`nhead = 128`,
`kv_len = 32`, an explicit `num_kv_splits = 2`, so the kernel's chunking gives
the two non-empty splits `[0, 16)` and `[16, 32)`), feed decode the stage-1
buffers that the stage-1 contract prescribes for the all-zero-score sequence:
each split's lse entry is `log(expSum 0 16) = log 16` resp.
`log(expSum 16 32) = log 16`.  The call succeeds, runs stage 2, and returns
exactly those per-split values — but the exact softmax normalizer of the
full unsplit range is `log(expSum 0 32) = log 32`, different from BOTH
returned entries.  So `decode_forward` does not return an aggregate
log-sum-exp per `(q, h)` on this path, contradicting the claim. -/
theorem C2_counterexample :
    ∃ (es : List Effect) (r : DecodeOk),
      mla_decode_fwd
          ⟨1, 128, 1, 576, (fun n => min n 1), (fun n => 32 * min n 1), 1, 32, 1,
            none, 0, some 2, 80⟩
          (fun _ _ _ _ => 0)
          (fun _ s _ => Real.log (expSum (fun _ => 0) (16 * s) (16 * s + 16))) =
        (es, Except.ok r) ∧
      r.ranStage2 = true ∧ r.numSplits = 2 ∧
      r.retLse 0 0 0 = Real.log (expSum (fun _ => 0) 0 16) ∧
      r.retLse 0 1 0 = Real.log (expSum (fun _ => 0) 16 32) ∧
      Real.log (expSum (fun _ => 0) 0 16) ≠ Real.log (expSum (fun _ => 0) 0 32) ∧
      Real.log (expSum (fun _ => 0) 16 32) ≠ Real.log (expSum (fun _ => 0) 0 32) := by
  have hsum : ∀ a b : ℕ, expSum (fun _ => 0) a b = ((b - a : ℕ) : ℝ) := by
    intro a b
    unfold expSum
    simp [Real.exp_zero]
  have hne1 : Real.log (expSum (fun _ => 0) 0 16) ≠ Real.log (expSum (fun _ => 0) 0 32) := by
    rw [hsum, hsum]
    norm_num
    exact ne_of_lt (Real.log_lt_log (by norm_num) (by norm_num))
  have hne2 : Real.log (expSum (fun _ => 0) 16 32) ≠ Real.log (expSum (fun _ => 0) 0 32) := by
    rw [hsum, hsum]
    norm_num
    exact ne_of_lt (Real.log_lt_log (by norm_num) (by norm_num))
  have hok : mla_decode_fwd
      ⟨1, 128, 1, 576, (fun n => min n 1), (fun n => 32 * min n 1), 1, 32, 1,
        none, 0, some 2, 80⟩
      (fun _ _ _ _ => 0)
      (fun _ s _ => Real.log (expSum (fun _ => 0) (16 * s) (16 * s + 16))) =
      ([Effect.allocScratch, Effect.allocLse, Effect.runStage1, Effect.runStage2],
        Except.ok ⟨2, 16, true, false, (fun _ _ _ _ => 0),
          (fun _ s _ => Real.log (expSum (fun _ => 0) (16 * s) (16 * s + 16))),
          fun b h o' =>
            if b < 1 ∧ h < 128 ∧ o' < 1 then
              fwd_kernel_stage2_asm (fun _ _ _ _ => 0)
                (fun _ s _ => Real.log (expSum (fun _ => 0) (16 * s) (16 * s + 16)))
                (fun n => min n 1) (fun n => 32 * min n 1) 2 16 1 b h o'
            else none⟩) := by
    unfold mla_decode_fwd
    rw [if_neg (by norm_num)]
    rw [show get_meta_param (some 2) 1 32 128 1 80 = Except.ok (2, 16) from rfl]
    dsimp only
    rw [if_neg (by decide), if_pos (Or.inr rfl), if_neg (by decide)]
  refine ⟨_, _, hok, rfl, rfl, ?_, ?_, hne1, hne2⟩
  · show Real.log (expSum (fun _ => 0) (16 * 0) (16 * 0 + 16)) = _
    norm_num
  · show Real.log (expSum (fun _ => 0) (16 * 1) (16 * 1 + 16)) = _
    norm_num

/-! ## C1: the online-softmax reduction is exactly full softmax attention -/

theorem expSum_pos (sc : ℕ → ℝ) (a b : ℕ) (hab : a < b) : 0 < expSum sc a b :=
  Finset.sum_pos (fun i _ => Real.exp_pos (sc i)) (Finset.nonempty_Ico.mpr hab)

theorem expSum_consec (sc : ℕ → ℝ) (a b : ℕ) (hab : a ≤ b) :
    expSum sc 0 a + expSum sc a b = expSum sc 0 b :=
  Finset.sum_Ico_consecutive _ (Nat.zero_le a) hab

theorem expVecSum_consec (sc : ℕ → ℝ) (vv : ℕ → ℕ → ℝ) (a b d : ℕ) (hab : a ≤ b) :
    expVecSum sc vv 0 a d + expVecSum sc vv a b d = expVecSum sc vv 0 b d :=
  Finset.sum_Ico_consecutive _ (Nat.zero_le a) hab

/-- Merging the consistent partial of the first non-empty range `[0, b)` into
the initial state establishes the invariant at `b`. -/
theorem invAt_merge_init (sc : ℕ → ℝ) (vv : ℕ → ℕ → ℝ) (Lv b : ℕ) (hb : 0 < b)
    (tv : ℕ → ℝ) (L : ℝ)
    (hL : L = Real.log (expSum sc 0 b))
    (htv : ∀ d, d < Lv → tv d = expVecSum sc vv 0 b d / expSum sc 0 b) :
    invAt sc vv Lv b (mergeStep tv L initState) := by
  have hpos : 0 < expSum sc 0 b := expSum_pos sc 0 b hb
  refine ⟨L, rfl, ?_, ?_⟩
  · show (0 * 0 + Real.exp (L - L)) * Real.exp L = expSum sc 0 b
    rw [sub_self, Real.exp_zero, hL, Real.exp_log hpos]
    ring
  · intro d hd
    show (0 * 0 + Real.exp (L - L) * tv d) * Real.exp L = expVecSum sc vv 0 b d
    rw [sub_self, Real.exp_zero, htv d hd, hL, Real.exp_log hpos]
    rw [zero_mul, zero_add, one_mul]
    exact div_mul_cancel₀ _ hpos.ne'

/-- Merging the consistent partial of the next non-empty range `[a, b)` into a
state satisfying the invariant at `a` establishes it at `b`. -/
theorem invAt_merge (sc : ℕ → ℝ) (vv : ℕ → ℕ → ℝ) (Lv a b : ℕ) (hab : a < b)
    (st : RState) (hst : invAt sc vv Lv a st) (tv : ℕ → ℝ) (L : ℝ)
    (hL : L = Real.log (expSum sc a b))
    (htv : ∀ d, d < Lv → tv d = expVecSum sc vv a b d / expSum sc a b) :
    invAt sc vv Lv b (mergeStep tv L st) := by
  obtain ⟨M, hM, hS, hA⟩ := hst
  obtain ⟨es, em, acc⟩ := st
  simp only at hM hS hA
  subst hM
  have hposab : 0 < expSum sc a b := expSum_pos sc a b hab
  have hexpL : Real.exp L = expSum sc a b := by
    rw [hL]
    exact Real.exp_log hposab
  have hMn : Real.exp (M - max L M) * Real.exp (max L M) = Real.exp M := by
    rw [← Real.exp_add, sub_add_cancel]
  have hLn : Real.exp (L - max L M) * Real.exp (max L M) = Real.exp L := by
    rw [← Real.exp_add, sub_add_cancel]
  refine ⟨max L M, rfl, ?_, ?_⟩
  · show (es * Real.exp (M - max L M) + Real.exp (L - max L M)) * Real.exp (max L M) =
      expSum sc 0 b
    calc (es * Real.exp (M - max L M) + Real.exp (L - max L M)) * Real.exp (max L M)
        = es * (Real.exp (M - max L M) * Real.exp (max L M)) +
            Real.exp (L - max L M) * Real.exp (max L M) := by ring
      _ = es * Real.exp M + Real.exp L := by rw [hMn, hLn]
      _ = expSum sc 0 a + expSum sc a b := by rw [hS, hexpL]
      _ = expSum sc 0 b := expSum_consec sc a b (le_of_lt hab)
  · intro d hd
    show (acc d * Real.exp (M - max L M) + Real.exp (L - max L M) * tv d) *
        Real.exp (max L M) = expVecSum sc vv 0 b d
    calc (acc d * Real.exp (M - max L M) + Real.exp (L - max L M) * tv d) *
          Real.exp (max L M)
        = acc d * (Real.exp (M - max L M) * Real.exp (max L M)) +
            (Real.exp (L - max L M) * Real.exp (max L M)) * tv d := by ring
      _ = acc d * Real.exp M + Real.exp L * tv d := by rw [hMn, hLn]
      _ = expVecSum sc vv 0 a d +
            expSum sc a b * (expVecSum sc vv a b d / expSum sc a b) := by
          rw [hA d hd, htv d hd, hexpL]
      _ = expVecSum sc vv 0 a d + expVecSum sc vv a b d := by
          rw [mul_comm, div_mul_cancel₀ _ hposab.ne']
      _ = expVecSum sc vv 0 b d := expVecSum_consec sc vv a b d (le_of_lt hab)

theorem splitStep_merge (Mid_O : ℕ → ℕ → ℕ → ℕ → ℝ) (Mid_lse : ℕ → ℕ → ℕ → ℝ)
    (q h kvlen nsplit mgc Lv : ℕ) (st : RState) (s : ℕ)
    (hne : max mgc (cdiv kvlen nsplit) * s <
      min (max mgc (cdiv kvlen nsplit) * s + max mgc (cdiv kvlen nsplit)) kvlen) :
    splitStep Mid_O Mid_lse q h kvlen nsplit mgc Lv st s =
      mergeStep (fun d => if d < Lv then Mid_O q s h d else 0) (Mid_lse q s h) st := by
  simp only [splitStep]
  exact if_pos hne

theorem le_cdiv_mul (a b : ℕ) (hb : 1 ≤ b) : a ≤ cdiv a b * b := by
  unfold cdiv
  have h1 := Nat.div_add_mod (a + b - 1) b
  have h2 : (a + b - 1) % b < b := Nat.mod_lt _ (by omega)
  rw [mul_comm]
  omega

/-- The invariant holds after every non-empty prefix of the split loop, for
the KV prefix `[0, min(chunk*t, cur_kv_len))`. -/
theorem stage2Loop_inv (Mid_O : ℕ → ℕ → ℕ → ℕ → ℝ) (Mid_lse : ℕ → ℕ → ℕ → ℝ)
    (sc : ℕ → ℝ) (vv : ℕ → ℕ → ℝ) (q h kvlen nsplit mgc Lv : ℕ)
    (hkv : 1 ≤ kvlen) (hns : 1 ≤ nsplit)
    (hcons : splitsConsistent Mid_O Mid_lse sc vv q h kvlen nsplit mgc Lv) :
    ∀ t, 1 ≤ t → t ≤ nsplit →
      invAt sc vv Lv (min (max mgc (cdiv kvlen nsplit) * t) kvlen)
        ((List.range t).foldl (splitStep Mid_O Mid_lse q h kvlen nsplit mgc Lv)
          initState) := by
  have hchunk1 : 1 ≤ max mgc (cdiv kvlen nsplit) := by
    have hcd : 1 ≤ cdiv kvlen nsplit := by
      unfold cdiv
      rw [Nat.one_le_div_iff (by omega)]
      omega
    omega
  intro t
  induction t with
  | zero => omega
  | succ k ih =>
      intro _ hle
      rcases Nat.eq_zero_or_pos k with hk0 | hkpos
      · subst hk0
        rw [show List.range 1 = [0] from rfl, List.foldl_cons, List.foldl_nil]
        have hne : max mgc (cdiv kvlen nsplit) * 0 <
            min (max mgc (cdiv kvlen nsplit) * 0 + max mgc (cdiv kvlen nsplit)) kvlen := by
          omega
        rw [splitStep_merge Mid_O Mid_lse q h kvlen nsplit mgc Lv initState 0 hne]
        obtain ⟨hlse, hout⟩ := hcons 0 (by omega) hne
        have hmeq : min (max mgc (cdiv kvlen nsplit) * (0 + 1)) kvlen =
            min (max mgc (cdiv kvlen nsplit) * 0 + max mgc (cdiv kvlen nsplit)) kvlen := by
          rw [Nat.mul_succ]
        rw [hmeq]
        refine invAt_merge_init sc vv Lv
          (min (max mgc (cdiv kvlen nsplit) * 0 + max mgc (cdiv kvlen nsplit)) kvlen)
          (by omega) _ _ ?_ ?_
        · exact hlse
        · intro d hd
          simp only [if_pos hd]
          exact hout d hd
      · rw [List.range_succ, List.foldl_append, List.foldl_cons, List.foldl_nil]
        have ihk := ih hkpos (by omega)
        by_cases hlt : max mgc (cdiv kvlen nsplit) * k < kvlen
        · have hmk : min (max mgc (cdiv kvlen nsplit) * k) kvlen =
              max mgc (cdiv kvlen nsplit) * k := min_eq_left (le_of_lt hlt)
          rw [hmk] at ihk
          have hne : max mgc (cdiv kvlen nsplit) * k <
              min (max mgc (cdiv kvlen nsplit) * k + max mgc (cdiv kvlen nsplit)) kvlen := by
            omega
          rw [splitStep_merge Mid_O Mid_lse q h kvlen nsplit mgc Lv _ k hne]
          obtain ⟨hlse, hout⟩ := hcons k (by omega) hne
          have hmeq : min (max mgc (cdiv kvlen nsplit) * (k + 1)) kvlen =
              min (max mgc (cdiv kvlen nsplit) * k + max mgc (cdiv kvlen nsplit)) kvlen := by
            rw [Nat.mul_succ]
          rw [hmeq]
          refine invAt_merge sc vv Lv (max mgc (cdiv kvlen nsplit) * k)
            (min (max mgc (cdiv kvlen nsplit) * k + max mgc (cdiv kvlen nsplit)) kvlen)
            hne _ ihk _ _ ?_ ?_
          · exact hlse
          · intro d hd
            simp only [if_pos hd]
            exact hout d hd
        · have hge : kvlen ≤ max mgc (cdiv kvlen nsplit) * k := by omega
          rw [splitStep_skip Mid_O Mid_lse q h kvlen nsplit mgc Lv _ k (by omega)]
          have hmeq : min (max mgc (cdiv kvlen nsplit) * (k + 1)) kvlen =
              min (max mgc (cdiv kvlen nsplit) * k) kvlen := by
            rw [Nat.mul_succ]
            omega
          rw [hmeq]
          exact ihk

/-- The stage-2 store value is exactly the full softmax attention output over
the unsplit KV range, for any split count ≥ 1, any `mgc`, and any stage-1
buffers consistent with the per-split contract. -/
theorem stage2Out_closed (Mid_O : ℕ → ℕ → ℕ → ℕ → ℝ) (Mid_lse : ℕ → ℕ → ℕ → ℝ)
    (sc : ℕ → ℝ) (vv : ℕ → ℕ → ℝ) (q h kvlen nsplit mgc Lv : ℕ)
    (hns : 1 ≤ nsplit) (hkv : 1 ≤ kvlen)
    (hcons : splitsConsistent Mid_O Mid_lse sc vv q h kvlen nsplit mgc Lv) :
    ∀ d, d < Lv → stage2Out Mid_O Mid_lse q h kvlen nsplit mgc Lv d = attnOut sc vv kvlen d := by
  have hinv := stage2Loop_inv Mid_O Mid_lse sc vv q h kvlen nsplit mgc Lv hkv hns hcons
      nsplit hns (le_refl nsplit)
  have hcover : kvlen ≤ max mgc (cdiv kvlen nsplit) * nsplit := by
    have h1 : kvlen ≤ cdiv kvlen nsplit * nsplit := le_cdiv_mul kvlen nsplit hns
    have h2 : cdiv kvlen nsplit * nsplit ≤ max mgc (cdiv kvlen nsplit) * nsplit :=
      Nat.mul_le_mul_right _ (le_max_right _ _)
    omega
  rw [min_eq_right hcover] at hinv
  obtain ⟨M, hM, hS, hA⟩ := hinv
  intro d hd
  show (stage2Loop Mid_O Mid_lse q h kvlen nsplit mgc Lv).acc d /
      (stage2Loop Mid_O Mid_lse q h kvlen nsplit mgc Lv).e_sum = attnOut sc vv kvlen d
  unfold stage2Loop
  calc ((List.range nsplit).foldl (splitStep Mid_O Mid_lse q h kvlen nsplit mgc Lv)
          initState).acc d /
        ((List.range nsplit).foldl (splitStep Mid_O Mid_lse q h kvlen nsplit mgc Lv)
          initState).e_sum
      = (((List.range nsplit).foldl (splitStep Mid_O Mid_lse q h kvlen nsplit mgc Lv)
            initState).acc d * Real.exp M) /
          (((List.range nsplit).foldl (splitStep Mid_O Mid_lse q h kvlen nsplit mgc Lv)
            initState).e_sum * Real.exp M) :=
        (mul_div_mul_right _ _ (Real.exp_ne_zero M)).symm
    _ = expVecSum sc vv 0 kvlen d / expSum sc 0 kvlen := by rw [hS, hA d hd]
    _ = attnOut sc vv kvlen d := rfl

/-- C1: if every non-empty split's stage-1 partial pair is the attention
output and log-sum-exp of its assigned KV sub-range (the kernel's chunking,
whose non-empty ranges concatenate to the full `[0, cur_kv_len)`), then the
stage-2 reduction at an in-range grid unit stores exactly the full softmax
attention output of the unsplit range (exact arithmetic), and — for a fixed
sequence — the stored value is the same for every split count in
`{1, 2, 4, 8, 16}` (indeed for every split count ≥ 1). -/
theorem C1_stage2_reduction_correct (Mid_O : ℕ → ℕ → ℕ → ℕ → ℝ)
    (Mid_lse : ℕ → ℕ → ℕ → ℝ) (sc : ℕ → ℝ) (vv : ℕ → ℕ → ℝ) (qo kv : ℕ → ℕ)
    (nsplit mgc Lv b h o' : ℕ)
    (hguard : qo b + o' ≤ qo (b + 1))
    (hns : 1 ≤ nsplit)
    (hkv : 1 ≤ kv (b + 1) - kv b)
    (hcons : splitsConsistent Mid_O Mid_lse sc vv (qo b + o') h (kv (b + 1) - kv b)
      nsplit mgc Lv) :
    (∃ f, fwd_kernel_stage2_asm Mid_O Mid_lse qo kv nsplit mgc Lv b h o' = some f ∧
      ∀ d, d < Lv → f d = attnOut sc vv (kv (b + 1) - kv b) d) ∧
    (∀ (MA : ℕ → ℕ → ℕ → ℕ → ℝ) (LA : ℕ → ℕ → ℕ → ℝ)
        (MB : ℕ → ℕ → ℕ → ℕ → ℝ) (LB : ℕ → ℕ → ℕ → ℝ) (k₁ k₂ : ℕ),
      k₁ ∈ ([1, 2, 4, 8, 16] : List ℕ) → k₂ ∈ ([1, 2, 4, 8, 16] : List ℕ) →
      splitsConsistent MA LA sc vv (qo b + o') h (kv (b + 1) - kv b) k₁ mgc Lv →
      splitsConsistent MB LB sc vv (qo b + o') h (kv (b + 1) - kv b) k₂ mgc Lv →
      ∀ d, d < Lv →
        stage2Out MA LA (qo b + o') h (kv (b + 1) - kv b) k₁ mgc Lv d =
        stage2Out MB LB (qo b + o') h (kv (b + 1) - kv b) k₂ mgc Lv d) := by
  have hone : ∀ k : ℕ, k ∈ ([1, 2, 4, 8, 16] : List ℕ) → 1 ≤ k := by
    intro k hk
    simp only [List.mem_cons, List.mem_singleton] at hk
    rcases hk with rfl | rfl | rfl | rfl | rfl | hk
    · omega
    · omega
    · omega
    · omega
    · omega
    · simp at hk
  constructor
  · refine ⟨fun d => stage2Out Mid_O Mid_lse (qo b + o') h (kv (b + 1) - kv b)
        nsplit mgc Lv d, ?_, ?_⟩
    · unfold fwd_kernel_stage2_asm
      rw [if_neg (not_lt.mpr hguard)]
    · intro d hd
      exact stage2Out_closed Mid_O Mid_lse sc vv (qo b + o') h (kv (b + 1) - kv b)
        nsplit mgc Lv hns hkv hcons d hd
  · intro MA LA MB LB k₁ k₂ hk₁ hk₂ hca hcb d hd
    rw [stage2Out_closed MA LA sc vv (qo b + o') h (kv (b + 1) - kv b) k₁ mgc Lv
        (hone k₁ hk₁) hkv hca d hd,
      stage2Out_closed MB LB sc vv (qo b + o') h (kv (b + 1) - kv b) k₂ mgc Lv
        (hone k₂ hk₂) hkv hcb d hd]

/-- Witness for C1: a one-token sequence (`kv_len = 1`, score `0`, value `1`),
a single split, `mgc = 16`; the stage-1 buffers hold exactly the sub-range
attention output and lse, and the kernel reproduces the full softmax output. -/
theorem C1_witness :
    (1 : ℕ) ≤ 1 ∧
    ∃ f, fwd_kernel_stage2_asm
        (fun _ _ _ _ => expVecSum (fun _ => 0) (fun _ _ => 1) 0 1 0 /
          expSum (fun _ => 0) 0 1)
        (fun _ _ _ => Real.log (expSum (fun _ => 0) 0 1))
        (fun n => n) (fun n => n) 1 16 1 0 0 0 = some f ∧
      ∀ d, d < 1 → f d = attnOut (fun _ => 0) (fun _ _ => 1) 1 d := by
  have hcons : splitsConsistent
      (fun _ _ _ _ => expVecSum (fun _ => 0) (fun _ _ => 1) 0 1 0 /
        expSum (fun _ => 0) 0 1)
      (fun _ _ _ => Real.log (expSum (fun _ => 0) 0 1))
      (fun _ => 0) (fun _ _ => 1) 0 0 1 1 16 1 := by
    intro s hs
    have hs0 : s = 0 := by omega
    subst hs0
    intro _
    refine ⟨rfl, ?_⟩
    intro d hd
    have hd0 : d = 0 := by omega
    subst hd0
    rfl
  exact ⟨le_refl 1,
    (C1_stage2_reduction_correct
      (fun _ _ _ _ => expVecSum (fun _ => 0) (fun _ _ => 1) 0 1 0 /
        expSum (fun _ => 0) 0 1)
      (fun _ _ _ => Real.log (expSum (fun _ => 0) 0 1))
      (fun _ => 0) (fun _ _ => 1) (fun n => n) (fun n => n) 1 16 1 0 0 0
      (Nat.zero_le 1) (le_refl 1) (le_refl 1) hcons).1⟩

end Mla
